import Mathlib

/-!
Verification model of the `line-reader` library.

The embedding mirrors `src/line-reader.js` (class `LineReader` and the
`withBatchProcessor` decorator) and `src/enhanced-line-reader.js`
(class `EnhancedLineReader`).  Stateful JavaScript methods become explicit
state-passing functions returning `Except Err α × State`; a thrown error is
the `Except.error` constructor paired with the state as mutated up to the
throw point.  The underlying readline iterator is modelled as a list of
items, each either a text line or an I/O fault raised by the stream.
-/

namespace LineReaderModel

/-- One element produced by the underlying readline iterator: a text line,
or a read fault raised by the stream during `next()`. -/
inductive Item where
  | line (s : String)
  | ioError
deriving DecidableEq

/-- A file, as seen through the line iterator. -/
abbrev LFile := List Item

/-- A fault-free file consisting of the given text lines. -/
def stringFile (L : List String) : LFile := L.map Item.line

/-- Errors thrown by the reader methods. -/
inductive Err where
  | alreadyOpen
  | notOpen
  | ioFault
  | badLineNumber
deriving DecidableEq

/-- State of a `LineReader` session.  `handle` models `this.rl` and
`this.lineIterator` being non-null (they are set and cleared together),
`pos` is the position of the underlying line iterator, `isClosed` and
`currentLine` mirror the fields of the same names. -/
structure LRState where
  handle : Bool
  pos : Nat
  isClosed : Bool
  currentLine : Option String
deriving DecidableEq

/-- State right after the constructor ran: no handle, not closed. -/
def initState : LRState := ⟨false, 0, false, none⟩

/-- Method `open()`: throws if a handle is already present, otherwise
installs a fresh iterator at position 0.  It does not touch `isClosed`. -/
def openR (s : LRState) : Except Err Unit × LRState :=
  if s.handle then (Except.error Err.alreadyOpen, s)
  else (Except.ok (), { s with handle := true, pos := 0 })

/-- Method `close()`: returns immediately when already closed, otherwise
marks the session closed and releases the handle and iterator. -/
def close (s : LRState) : LRState :=
  if s.isClosed then s else { s with isClosed := true, handle := false }

/-- Method `readLine()` of the sequential reader: throws when no handle is
present, returns `null` when the closed flag is set, otherwise pulls the
next item from the iterator (closing on exhaustion or fault). -/
def readLine (f : LFile) (s : LRState) : Except Err (Option String) × LRState :=
  if s.handle = false then (Except.error Err.notOpen, s)
  else if s.isClosed then (Except.ok none, s)
  else
    match f[s.pos]? with
    | none => (Except.ok none, close s)
    | some (Item.line str) =>
        (Except.ok (some str), { s with pos := s.pos + 1, currentLine := some str })
    | some Item.ioError => (Except.error Err.ioFault, close s)

/-- Loop body of `skipLines`: `skipped` is the accumulator. -/
def skipLinesAux (f : LFile) : Nat → Nat → LRState → Except Err Nat × LRState
  | 0, skipped, s => (Except.ok skipped, s)
  | n + 1, skipped, s =>
    match readLine f s with
    | (Except.error e, s1) => (Except.error e, s1)
    | (Except.ok none, s1) => (Except.ok skipped, s1)
    | (Except.ok (some _), s1) => skipLinesAux f n (skipped + 1) s1

/-- Method `skipLines(count)`: the `for` loop runs `count` times when
`count` is positive and not at all otherwise. -/
def skipLines (f : LFile) (count : Int) (s : LRState) : Except Err Nat × LRState :=
  skipLinesAux f count.toNat 0 s

/-- Loop body of `readLines`: `lines` is the accumulator. -/
def readLinesAux (f : LFile) : Nat → List String → LRState → Except Err (List String) × LRState
  | 0, lines, s => (Except.ok lines, s)
  | n + 1, lines, s =>
    match readLine f s with
    | (Except.error e, s1) => (Except.error e, s1)
    | (Except.ok none, s1) => (Except.ok lines, s1)
    | (Except.ok (some str), s1) => readLinesAux f n (lines ++ [str]) s1

/-- Method `readLines(count)`. -/
def readLines (f : LFile) (count : Int) (s : LRState) : Except Err (List String) × LRState :=
  readLinesAux f count.toNat [] s

/-- Method `restart()`: `close()`, clear the closed flag, then `open()`. -/
def restart (s : LRState) : Except Err Unit × LRState :=
  openR { close s with isClosed := false }

/-- Method `isEOF()`. -/
def isEOF (s : LRState) : Bool := s.isClosed

/-- Results of `count` successive `readLine()` calls, in order, together
with the final state (a thrown call contributes its error and the loop
goes on from the state at the throw point, as a catching caller would). -/
def readTrace (f : LFile) : Nat → LRState → List (Except Err (Option String)) × LRState
  | 0, s => ([], s)
  | m + 1, s =>
    let r := readLine f s
    let rest := readTrace f m r.2
    (r.1 :: rest.1, rest.2)

/-- Result of calling `readLine()` `k + 1` times and keeping only the last
result; a thrown call aborts the sequence with its error. -/
def seqLast (f : LFile) : Nat → LRState → Except Err (Option String) × LRState
  | 0, s => readLine f s
  | k + 1, s =>
    match readLine f s with
    | (Except.error e, s1) => (Except.error e, s1)
    | (Except.ok _, s1) => seqLast f k s1

/-- Loop of the `readBatches` generator from `withBatchProcessor`, with
explicit fuel: while not `isEOF`, read a batch, stop on an empty batch,
otherwise yield it and continue. -/
def readBatchesAux (f : LFile) (b : Int) : Nat → LRState → Except Err (List (List String)) × LRState
  | 0, s => (Except.ok [], s)
  | fuel + 1, s =>
    if isEOF s then (Except.ok [], s)
    else
      match readLines f b s with
      | (Except.error e, s1) => (Except.error e, s1)
      | (Except.ok [], s1) => (Except.ok [], s1)
      | (Except.ok (x :: xs), s1) =>
        match readBatchesAux f b fuel s1 with
        | (Except.error e, s2) => (Except.error e, s2)
        | (Except.ok rest, s2) => (Except.ok ((x :: xs) :: rest), s2)

/-- The fully drained `readBatches()` sequence of `withBatchProcessor`.
Each non-empty batch consumes at least one line, so `f.length + 1` rounds
of fuel always suffice for the loop to reach its exit condition. -/
def readBatches (f : LFile) (b : Int) (s : LRState) : Except Err (List (List String)) × LRState :=
  readBatchesAux f b (f.length + 1) s

/-- Specification-side chunking function with explicit fuel. -/
def chunkListAux (b : Nat) : Nat → List String → List (List String)
  | 0, _ => []
  | _ + 1, [] => []
  | fuel + 1, x :: xs => ((x :: xs).take b) :: chunkListAux b fuel ((x :: xs).drop b)

/-- Specification-side chunking of a list into batches of `b` lines (the
last batch may be shorter). -/
def chunkList (b : Nat) (l : List String) : List (List String) := chunkListAux b l.length l

/-- Lookup in the cache, modelling `Map.prototype.get`/`has` on an
insertion-ordered association list with unique keys. -/
def mapGet : List (Nat × String) → Nat → Option String
  | [], _ => none
  | (k, v) :: rest, n => if k = n then some v else mapGet rest n

/-- Modelling `Map.prototype.set`: replace in place when the key exists,
append otherwise. -/
def mapSet : List (Nat × String) → Nat → String → List (Nat × String)
  | [], n, v => [(n, v)]
  | (k, w) :: rest, n, v =>
    if k = n then (n, v) :: rest else (k, w) :: mapSet rest n v

/-- Modelling `Map.prototype.delete`: remove the entry with the key. -/
def mapDelete : List (Nat × String) → Nat → List (Nat × String)
  | [], _ => []
  | (k, w) :: rest, n => if k = n then rest else (k, w) :: mapDelete rest n

/-- State of an `EnhancedLineReader` session: the inherited base state plus
`cache`, `cacheSize` and `linePointer`. -/
structure ELRState where
  base : LRState
  cache : List (Nat × String)
  cacheSize : Nat
  linePointer : Nat
deriving DecidableEq

/-- Method `manageCache()`: when the cache size exceeds the capacity, sort
the keys numerically ascending and delete the first `cacheSize / 2` of
them. -/
def manageCache (st : ELRState) : ELRState :=
  if st.cacheSize < st.cache.length then
    let keys := List.insertionSort (fun a b => a ≤ b) (st.cache.map Prod.fst)
    let toRemove := keys.take (st.cacheSize / 2)
    { st with cache := toRemove.foldl mapDelete st.cache }
  else st

/-- The overridden `readLine()` of `EnhancedLineReader`: delegate to the
base read; on a non-null result advance the pointer, cache the line under
the new pointer value and trim the cache. -/
def eReadLine (f : LFile) (st : ELRState) : Except Err (Option String) × ELRState :=
  match readLine f st.base with
  | (Except.error e, b1) => (Except.error e, { st with base := b1 })
  | (Except.ok none, b1) => (Except.ok none, { st with base := b1 })
  | (Except.ok (some str), b1) =>
    (Except.ok (some str),
      manageCache { st with base := b1, linePointer := st.linePointer + 1,
                            cache := mapSet st.cache (st.linePointer + 1) str })

/-- The inherited `skipLines` loop as executed on an `EnhancedLineReader`:
`this.readLine()` dispatches to the override. -/
def eSkipLinesAux (f : LFile) : Nat → Nat → ELRState → Except Err Nat × ELRState
  | 0, skipped, st => (Except.ok skipped, st)
  | n + 1, skipped, st =>
    match eReadLine f st with
    | (Except.error e, st1) => (Except.error e, st1)
    | (Except.ok none, st1) => (Except.ok skipped, st1)
    | (Except.ok (some _), st1) => eSkipLinesAux f n (skipped + 1) st1

/-- Method `skipLines(count)` on an `EnhancedLineReader`. -/
def eSkipLines (f : LFile) (count : Int) (st : ELRState) : Except Err Nat × ELRState :=
  eSkipLinesAux f count.toNat 0 st

/-- The inherited `restart()` as executed on an `EnhancedLineReader` (it
only mutates the base fields). -/
def eRestart (st : ELRState) : Except Err Unit × ELRState :=
  match restart st.base with
  | (Except.error e, b1) => (Except.error e, { st with base := b1 })
  | (Except.ok _, b1) => (Except.ok (), { st with base := b1 })

/-- Method `readLineAt(lineNumber)`: throw below 1; serve from the cache if
present; restart and reset the pointer when the target is at or behind the
pointer; skip to just before the target; read it via the overridden
`readLine`; cache the non-null result under `lineNumber` and trim. -/
def readLineAt (f : LFile) (n : Nat) (st : ELRState) : Except Err (Option String) × ELRState :=
  if n < 1 then (Except.error Err.badLineNumber, st)
  else
    match mapGet st.cache n with
    | some v => (Except.ok (some v), st)
    | none =>
      match (if n ≤ st.linePointer then
               match eRestart st with
               | (Except.error e, st1) => (Except.error e, st1)
               | (Except.ok _, st1) => (Except.ok (), { st1 with linePointer := 0 })
             else (Except.ok (), st)) with
      | (Except.error e, st1) => (Except.error e, st1)
      | (Except.ok _, st1) =>
        match eSkipLines f ((n : Int) - (st1.linePointer : Int) - 1) st1 with
        | (Except.error e, st2) => (Except.error e, st2)
        | (Except.ok _, st2) =>
          match eReadLine f st2 with
          | (Except.error e, st3) => (Except.error e, st3)
          | (Except.ok none, st3) => (Except.ok none, st3)
          | (Except.ok (some str), st3) =>
            (Except.ok (some str), manageCache { st3 with cache := mapSet st3.cache n str })

/-- Method `getCurrentLineNumber()`. -/
def getCurrentLineNumber (st : ELRState) : Nat := st.linePointer

/-- Base state of a freshly opened sequential reader. -/
def baseOpened : LRState := (openR initState).2

/-- State of a freshly opened `EnhancedLineReader` with cache capacity `c`
(the constructor stores `options.cacheSize || 1000` there). -/
def eOpened (c : Nat) : ELRState := ⟨baseOpened, [], c, 0⟩

/-- A user-visible read operation on an `EnhancedLineReader`. -/
inductive EOp where
  | read
  | readAt (n : Nat)
deriving DecidableEq

/-- Execute one operation and keep the resulting state (a caller that
catches any thrown error and goes on). -/
def runOp (f : LFile) (st : ELRState) : EOp → ELRState
  | EOp.read => (eReadLine f st).2
  | EOp.readAt n => (readLineAt f n st).2

/-- Execute a sequence of prior operations. -/
def runOps (f : LFile) (ops : List EOp) (st : ELRState) : ELRState :=
  ops.foldl (runOp f) st

/-- Every cache entry holds exactly the file content of its 1-based line
number. -/
def CacheOK (L : List String) (m : List (Nat × String)) : Prop :=
  ∀ p ∈ m, 1 ≤ p.1 ∧ p.1 ≤ L.length ∧ L[p.1 - 1]? = some p.2

/-- The session is open with the iterator at the pointer. -/
def OpenSt (L : List String) (st : ELRState) : Prop :=
  st.base.handle = true ∧ st.base.isClosed = false ∧
    st.base.pos = st.linePointer ∧ st.linePointer ≤ L.length

/-- The session was closed by exhaustion, with all lines consumed. -/
def ClosedSt (L : List String) (st : ELRState) : Prop :=
  st.base.handle = false ∧ st.base.isClosed = true ∧ st.linePointer = L.length

/-- Reachability invariant of an `EnhancedLineReader` session driven only
by `readLine`/`readLineAt` after `open()`. -/
def EInv (L : List String) (st : ELRState) : Prop :=
  CacheOK L st.cache ∧ (OpenSt L st ∨ ClosedSt L st)

/-- Key list of the cache. -/
def keysOf (m : List (Nat × String)) : List Nat := m.map Prod.fst

theorem stringFile_getElem? (L : List String) (n : Nat) :
    (stringFile L)[n]? = (L[n]?).map Item.line := by
  simp [stringFile]

theorem length_stringFile (L : List String) : (stringFile L).length = L.length := by
  simp [stringFile]

theorem readLine_no_handle (f : LFile) (s : LRState) (h : s.handle = false) :
    readLine f s = (Except.error Err.notOpen, s) := by
  simp [readLine, h]

theorem readLine_flagged_closed (f : LFile) (s : LRState) (h : s.handle = true)
    (h2 : s.isClosed = true) : readLine f s = (Except.ok none, s) := by
  simp [readLine, h, h2]

theorem readLine_eof (L : List String) (s : LRState) (h : s.handle = true)
    (h2 : s.isClosed = false) (h3 : L.length ≤ s.pos) :
    readLine (stringFile L) s = (Except.ok none, close s) := by
  have hn : (stringFile L)[s.pos]? = none := by
    rw [stringFile_getElem?, List.getElem?_eq_none h3, Option.map_none']
  simp [readLine, h, h2, hn]

theorem readLine_step (L : List String) (s : LRState) (h : s.handle = true)
    (h2 : s.isClosed = false) (h3 : s.pos < L.length) :
    readLine (stringFile L) s =
      (Except.ok (some L[s.pos]),
        { s with pos := s.pos + 1, currentLine := some L[s.pos] }) := by
  have hn : (stringFile L)[s.pos]? = some (Item.line L[s.pos]) := by
    rw [stringFile_getElem?, List.getElem?_eq_getElem h3]
    simp
  simp [readLine, h, h2, hn]

theorem baseOpened_eq : baseOpened = ⟨true, 0, false, none⟩ := rfl

theorem readTrace_succ (f : LFile) (m : Nat) (s : LRState) :
    readTrace f (m + 1) s
      = ((readLine f s).1 :: (readTrace f m (readLine f s).2).1,
         (readTrace f m (readLine f s).2).2) := rfl

theorem readTrace_drain (L : List String) :
    ∀ (k : Nat) (s : LRState), s.handle = true → s.isClosed = false →
      L.length = s.pos + k →
      (readTrace (stringFile L) (k + 1) s).1
          = (L.drop s.pos).map (fun x => Except.ok (some x)) ++ [Except.ok none] ∧
        (readTrace (stringFile L) (k + 1) s).2.isClosed = true ∧
        (readTrace (stringFile L) (k + 1) s).2.handle = false := by
  intro k
  induction k with
  | zero =>
    intro s h1 h2 h3
    have hr := readLine_eof L s h1 h2 (by omega)
    have hdrop : L.drop s.pos = [] := List.drop_eq_nil_of_le (by omega)
    refine ⟨?_, ?_, ?_⟩ <;> simp [readTrace, hr, hdrop, close, h2]
  | succ k ih =>
    intro s h1 h2 h3
    have hpos : s.pos < L.length := by omega
    have hr := readLine_step L s h1 h2 hpos
    have hdrop : L.drop s.pos = L[s.pos] :: L.drop (s.pos + 1) :=
      List.drop_eq_getElem_cons hpos
    have ih2 := ih { s with pos := s.pos + 1, currentLine := some L[s.pos] }
      h1 h2 (by show L.length = s.pos + 1 + k; omega)
    have ih2a : (readTrace (stringFile L) (k + 1)
          { s with pos := s.pos + 1, currentLine := some L[s.pos] }).1
        = List.map (fun x => Except.ok (some x)) (L.drop (s.pos + 1)) ++ [Except.ok none] :=
      ih2.1
    rw [readTrace_succ, hr]
    refine ⟨?_, ih2.2.1, ih2.2.2⟩
    rw [hdrop, List.map_cons, List.cons_append]
    exact congrArg (fun t => Except.ok (some L[s.pos]) :: t) ih2a

/-- Claim C2: after `open()`, `N + 1` successive `readLine()` calls on a
file with `N` lines return the `N` lines in order followed by `null`, and
`isEOF()` is true afterwards. -/
theorem readTrace_yields_lines_then_null (L : List String) :
    (readTrace (stringFile L) (L.length + 1) baseOpened).1
        = L.map (fun x => Except.ok (some x)) ++ [Except.ok none] ∧
      isEOF (readTrace (stringFile L) (L.length + 1) baseOpened).2 = true := by
  have h := readTrace_drain L L.length baseOpened rfl rfl
    (by simp [baseOpened_eq])
  refine ⟨?_, ?_⟩
  · have h1 := h.1
    rw [baseOpened_eq] at h1
    simpa using h1
  · simpa [isEOF] using h.2.1

/-- Claim C3 counterexample: on the one-line file, a session that was
opened and then closed does not return `null` from `readLine()` — it
raises the "not open" misuse error, because `close()` released the
handle. -/
theorem readLine_after_close_raises_cex :
    (readLine (stringFile ["a"]) (close baseOpened)).1 = Except.error Err.notOpen := rfl

/-- Claim C3 (amended): `readLine()` raises the misuse error whenever no
handle is present — both on a never-opened session and after any
`close()` (explicit, end-of-file or fault), since closing releases the
handle.  It returns `null` without raising only in the state where the
closed flag is set while a handle is present (reachable only by calling
`open()` again on a closed session without `restart()`). -/
theorem readLine_closed_semantics (f : LFile) (s : LRState) :
    (s.handle = false → readLine f s = (Except.error Err.notOpen, s)) ∧
    (s.isClosed = false → readLine f (close s) = (Except.error Err.notOpen, close s)) ∧
    (s.handle = true → s.isClosed = true → readLine f s = (Except.ok none, s)) := by
  refine ⟨readLine_no_handle f s, ?_, readLine_flagged_closed f s⟩
  intro h
  exact readLine_no_handle f (close s) (by simp [close, h])

theorem readLine_closed_semantics_witness :
    readLine (stringFile ["a"]) (close baseOpened)
      = (Except.error Err.notOpen, close baseOpened) :=
  (readLine_closed_semantics (stringFile ["a"]) baseOpened).2.1 rfl

/-- Claim C6: an I/O fault raised by the iterator during `readLine()` is
propagated to the caller, and the session is left closed with the handle
released; no `null` is substituted. -/
theorem readLine_fault_closes (f : LFile) (s : LRState) (h1 : s.handle = true)
    (h2 : s.isClosed = false) (h3 : f[s.pos]? = some Item.ioError) :
    (readLine f s).1 = Except.error Err.ioFault ∧
      isEOF (readLine f s).2 = true ∧ (readLine f s).2.handle = false := by
  refine ⟨?_, ?_, ?_⟩ <;> simp [readLine, h1, h2, h3, isEOF, close]

theorem readLine_fault_closes_witness :
    (readLine [Item.ioError] baseOpened).1 = Except.error Err.ioFault ∧
      isEOF (readLine [Item.ioError] baseOpened).2 = true ∧
      (readLine [Item.ioError] baseOpened).2.handle = false :=
  readLine_fault_closes [Item.ioError] baseOpened rfl rfl rfl

/-- Claim C8 counterexample: calling `close()` on a never-opened session
does not leave the observable state unchanged — it sets the closed flag,
so `isEOF()` flips from `false` to `true`. -/
theorem close_never_opened_changes_state_cex : close initState ≠ initState := by
  decide

/-- Claim C8 (amended): `open()` on an already-open session raises the
misuse error; `close()` on an already-closed session is a strict no-op;
`close()` never raises and is idempotent, so it may be called any number
of times; on a never-opened session `close()` raises nothing but does set
the closed flag (making `isEOF()` true), leaving the other fields
unchanged. -/
theorem open_close_semantics :
    (∀ s : LRState, s.handle = true → openR s = (Except.error Err.alreadyOpen, s)) ∧
    (∀ s : LRState, s.isClosed = true → close s = s) ∧
    (∀ s : LRState, close (close s) = close s) ∧
    close initState = { initState with isClosed := true } := by
  refine ⟨?_, ?_, ?_, rfl⟩
  · intro s h; simp [openR, h]
  · intro s h; simp [close, h]
  · intro s; by_cases h : s.isClosed <;> simp [close, h]

theorem open_close_semantics_witness :
    openR baseOpened = (Except.error Err.alreadyOpen, baseOpened) ∧
      close (close initState) = close initState :=
  ⟨open_close_semantics.1 baseOpened rfl, open_close_semantics.2.2.1 initState⟩

/-- Claim C10: with a non-positive count the `for` loops of `skipLines`
and `readLines` run zero times, so they return `0` and `[]` on any session
state, without touching the state and without raising. -/
theorem nonpositive_count_noop (f : LFile) (c : Int) (s : LRState) (h : c ≤ 0) :
    skipLines f c s = (Except.ok 0, s) ∧ readLines f c s = (Except.ok [], s) := by
  have h0 : c.toNat = 0 := by omega
  constructor <;> simp [skipLines, readLines, h0, skipLinesAux, readLinesAux]

theorem nonpositive_count_noop_witness :
    skipLines [] (-3) initState = (Except.ok 0, initState) ∧
      readLines [] (-3) initState = (Except.ok [], initState) :=
  nonpositive_count_noop [] (-3) initState (by decide)

theorem skipLinesAux_acc (f : LFile) :
    ∀ (n acc : Nat) (s : LRState),
      skipLinesAux f n acc s
        = ((skipLinesAux f n 0 s).1.map (fun m => m + acc), (skipLinesAux f n 0 s).2) := by
  intro n
  induction n with
  | zero => intro acc s; simp [skipLinesAux, Except.map]
  | succ n ih =>
    intro acc s
    rcases hr : readLine f s with ⟨r, s1⟩
    match r with
    | Except.error e => simp [skipLinesAux, hr, Except.map]
    | Except.ok none => simp [skipLinesAux, hr, Except.map]
    | Except.ok (some str) =>
      simp only [skipLinesAux, hr]
      rw [ih (acc + 1) s1, ih (0 + 1) s1]
      rcases hx : (skipLinesAux f n 0 s1).1 with e | m
      · simp [Except.map]
      · simp [Except.map]
        omega

theorem skipLinesAux_result (L : List String) :
    ∀ (k : Nat) (s : LRState), s.handle = true → s.isClosed = false →
      (skipLinesAux (stringFile L) k 0 s).1 = Except.ok (min k (L.length - s.pos)) := by
  intro k
  induction k with
  | zero => intro s h1 h2; simp [skipLinesAux]
  | succ k ih =>
    intro s h1 h2
    by_cases hpos : s.pos < L.length
    · have hr := readLine_step L s h1 h2 hpos
      simp only [skipLinesAux, hr]
      rw [skipLinesAux_acc (stringFile L) k (0 + 1)]
      have hih := ih { s with pos := s.pos + 1, currentLine := some L[s.pos] } h1 h2
      simp [hih, Except.map]
      omega
    · have hr := readLine_eof L s h1 h2 (by omega)
      simp only [skipLinesAux, hr]
      have : L.length - s.pos = 0 := by omega
      simp [this]

theorem skip_then_read_eq_seqLast (L : List String) :
    ∀ (k : Nat) (s : LRState), s.handle = true → s.isClosed = false →
      k ≤ L.length - s.pos →
      readLine (stringFile L) (skipLinesAux (stringFile L) k 0 s).2
        = seqLast (stringFile L) k s := by
  intro k
  induction k with
  | zero => intro s h1 h2 h3; simp [skipLinesAux, seqLast]
  | succ k ih =>
    intro s h1 h2 h3
    have hpos : s.pos < L.length := by omega
    have hr := readLine_step L s h1 h2 hpos
    simp only [skipLinesAux, seqLast, hr]
    rw [skipLinesAux_acc (stringFile L) k (0 + 1)]
    exact ih { s with pos := s.pos + 1, currentLine := some L[s.pos] }
      h1 h2 (by show k ≤ L.length - (s.pos + 1); omega)

/-- Claim C7: on an open, not-closed session, `skipLines(k)` returns the
number of lines actually consumed, `min k remaining`; and whenever
`k ≤ remaining`, `skipLines(k)` followed by `readLine()` produces exactly
the result (and state) of calling `readLine()` `k + 1` times and keeping
only the last result. -/
theorem skipLines_readLine_equiv (L : List String) (k : Nat) (s : LRState)
    (h1 : s.handle = true) (h2 : s.isClosed = false) :
    (skipLines (stringFile L) (k : Int) s).1 = Except.ok (min k (L.length - s.pos)) ∧
    (k ≤ L.length - s.pos →
      readLine (stringFile L) (skipLines (stringFile L) (k : Int) s).2
        = seqLast (stringFile L) k s) := by
  have htn : ((k : Int)).toNat = k := by omega
  constructor
  · rw [skipLines, htn]; exact skipLinesAux_result L k s h1 h2
  · intro hk; rw [skipLines, htn]; exact skip_then_read_eq_seqLast L k s h1 h2 hk

theorem readLinesAux_acc (f : LFile) :
    ∀ (n : Nat) (acc : List String) (s : LRState),
      readLinesAux f n acc s
        = ((readLinesAux f n [] s).1.map (fun l => acc ++ l), (readLinesAux f n [] s).2) := by
  intro n
  induction n with
  | zero => intro acc s; simp [readLinesAux, Except.map]
  | succ n ih =>
    intro acc s
    rcases hr : readLine f s with ⟨r, s1⟩
    match r with
    | Except.error e => simp [readLinesAux, hr, Except.map]
    | Except.ok none => simp [readLinesAux, hr, Except.map]
    | Except.ok (some str) =>
      simp only [readLinesAux, hr]
      rw [ih (acc ++ [str]) s1, ih ([] ++ [str]) s1]
      rcases hx : (readLinesAux f n [] s1).1 with e | l
      · simp [Except.map]
      · simp [Except.map]

theorem readLinesAux_take (L : List String) :
    ∀ (k : Nat) (s : LRState), s.handle = true → s.isClosed = false →
      k ≤ L.length - s.pos →
      ∃ s1, readLinesAux (stringFile L) k [] s
          = (Except.ok ((L.drop s.pos).take k), s1)
        ∧ s1.handle = true ∧ s1.isClosed = false ∧ s1.pos = s.pos + k := by
  intro k
  induction k with
  | zero =>
    intro s h1 h2 h3
    exact ⟨s, by simp [readLinesAux], h1, h2, rfl⟩
  | succ k ih =>
    intro s h1 h2 h3
    have hpos : s.pos < L.length := by omega
    have hr := readLine_step L s h1 h2 hpos
    obtain ⟨s1, he, e1, e2, e3⟩ :=
      ih { s with pos := s.pos + 1, currentLine := some L[s.pos] } h1 h2
        (by show k ≤ L.length - (s.pos + 1); omega)
    have e3a : s1.pos = (s.pos + 1) + k := e3
    have hdrop : L.drop s.pos = L[s.pos] :: L.drop (s.pos + 1) :=
      List.drop_eq_getElem_cons hpos
    refine ⟨s1, ?_, e1, e2, by omega⟩
    simp only [readLinesAux, hr]
    rw [readLinesAux_acc (stringFile L) k ([] ++ [L[s.pos]]), he, hdrop,
      List.take_succ_cons]
    simp [Except.map]

theorem readLinesAux_all (L : List String) :
    ∀ (k : Nat) (s : LRState), s.handle = true → s.isClosed = false →
      L.length - s.pos < k →
      ∃ s1, readLinesAux (stringFile L) k [] s = (Except.ok (L.drop s.pos), s1)
        ∧ s1.handle = false ∧ s1.isClosed = true := by
  intro k
  induction k with
  | zero => intro s _ _ h3; omega
  | succ k ih =>
    intro s h1 h2 h3
    by_cases hpos : s.pos < L.length
    · have hr := readLine_step L s h1 h2 hpos
      obtain ⟨s1, he, e1, e2⟩ :=
        ih { s with pos := s.pos + 1, currentLine := some L[s.pos] } h1 h2
          (by show L.length - (s.pos + 1) < k; omega)
      have hdrop : L.drop s.pos = L[s.pos] :: L.drop (s.pos + 1) :=
        List.drop_eq_getElem_cons hpos
      refine ⟨s1, ?_, e1, e2⟩
      simp only [readLinesAux, hr]
      rw [readLinesAux_acc (stringFile L) k ([] ++ [L[s.pos]]), he, hdrop]
      simp [Except.map]
    · have hr := readLine_eof L s h1 h2 (by omega)
      have hdrop : L.drop s.pos = [] := List.drop_eq_nil_of_le (by omega)
      exact ⟨close s, by simp [readLinesAux, hr, hdrop], by simp [close, h2],
        by simp [close, h2]⟩

theorem chunkListAux_nil (b fuel : Nat) : chunkListAux b fuel [] = [] := by
  cases fuel <;> rfl

theorem chunkListAux_fuel (b : Nat) (hb : 1 ≤ b) :
    ∀ (fuel fuel2 : Nat) (l : List String), l.length ≤ fuel → l.length ≤ fuel2 →
      chunkListAux b fuel l = chunkListAux b fuel2 l := by
  intro fuel
  induction fuel with
  | zero =>
    intro fuel2 l h1 h2
    have : l = [] := List.length_eq_zero.mp (by omega)
    subst this
    rw [chunkListAux_nil, chunkListAux_nil]
  | succ fuel ih =>
    intro fuel2 l h1 h2
    match l with
    | [] => rw [chunkListAux_nil, chunkListAux_nil]
    | x :: xs =>
      match fuel2 with
      | 0 => simp at h2
      | fuel2 + 1 =>
        show ((x :: xs).take b) :: chunkListAux b fuel ((x :: xs).drop b)
            = ((x :: xs).take b) :: chunkListAux b fuel2 ((x :: xs).drop b)
        have hlen : ((x :: xs).drop b).length = (x :: xs).length - b :=
          List.length_drop b (x :: xs)
        rw [ih fuel2 ((x :: xs).drop b) (by rw [hlen]; omega) (by rw [hlen]; omega)]

theorem chunkList_cons (b : Nat) (hb : 1 ≤ b) (l : List String) (hl : l ≠ []) :
    chunkList b l = l.take b :: chunkList b (l.drop b) := by
  match l with
  | x :: xs =>
    show chunkListAux b (xs.length + 1) (x :: xs) = _
    show ((x :: xs).take b) :: chunkListAux b xs.length ((x :: xs).drop b) = _
    rw [chunkListAux_fuel b hb xs.length ((x :: xs).drop b).length ((x :: xs).drop b)
      (by rw [List.length_drop, List.length_cons]; omega) (le_refl _)]
    rfl

theorem chunkList_flatten (b : Nat) (hb : 1 ≤ b) :
    ∀ (n : Nat) (l : List String), l.length ≤ n → (chunkList b l).flatten = l := by
  intro n
  induction n with
  | zero =>
    intro l h
    have : l = [] := List.length_eq_zero.mp (by omega)
    subst this
    rfl
  | succ n ih =>
    intro l h
    match l with
    | [] => rfl
    | x :: xs =>
      rw [chunkList_cons b hb (x :: xs) (by simp), List.flatten_cons,
        ih ((x :: xs).drop b)
          (by rw [List.length_drop, List.length_cons]; rw [List.length_cons] at h; omega),
        List.take_append_drop]

theorem chunkList_length_nil (b : Nat) (hb : 1 ≤ b) :
    (chunkList b ([] : List String)).length = (([] : List String).length + b - 1) / b := by
  have h0 : (chunkList b ([] : List String)).length = 0 := rfl
  rw [h0, List.length_nil, Nat.zero_add, Nat.div_eq_of_lt (by omega)]

theorem chunkList_length (b : Nat) (hb : 1 ≤ b) :
    ∀ (n : Nat) (l : List String), l.length ≤ n →
      (chunkList b l).length = (l.length + b - 1) / b := by
  intro n
  induction n with
  | zero =>
    intro l h
    have : l = [] := List.length_eq_zero.mp (by omega)
    subst this
    exact chunkList_length_nil b hb
  | succ n ih =>
    intro l h
    match l with
    | [] => exact chunkList_length_nil b hb
    | x :: xs =>
      have hdl : ((x :: xs).drop b).length = (x :: xs).length - b :=
        List.length_drop b (x :: xs)
      rw [chunkList_cons b hb (x :: xs) (by simp), List.length_cons,
        ih ((x :: xs).drop b)
          (by rw [hdl, List.length_cons]; rw [List.length_cons] at h; omega),
        hdl]
      have hlpos : 1 ≤ (x :: xs).length := by simp
      rcases le_or_lt (x :: xs).length b with hle | hlt
      · have h0 : (x :: xs).length - b = 0 := by omega
        rw [h0, show 0 + b - 1 = b - 1 from by omega, Nat.div_eq_of_lt (by omega),
          show (x :: xs).length + b - 1 = ((x :: xs).length - 1) + b from by omega,
          Nat.add_div_right _ (by omega), Nat.div_eq_of_lt (by omega)]
      · have hm : b ≤ (x :: xs).length - 1 := by omega
        rw [show (x :: xs).length - b + b - 1 = ((x :: xs).length - b - 1) + b from by omega,
          show (x :: xs).length + b - 1 = ((x :: xs).length - 1) + b from by omega,
          Nat.add_div_right _ (by omega), Nat.add_div_right _ (by omega),
          Nat.div_eq_sub_div (by omega) hm,
          show (x :: xs).length - 1 - b = (x :: xs).length - b - 1 from by omega]

theorem chunkList_batches (b : Nat) (hb : 1 ≤ b) :
    ∀ (n : Nat) (l : List String), l.length ≤ n →
      ∀ batch ∈ chunkList b l, batch ≠ [] ∧ batch.length ≤ b := by
  intro n
  induction n with
  | zero =>
    intro l h
    have : l = [] := List.length_eq_zero.mp (by omega)
    subst this
    intro batch hmem
    simp [chunkList, chunkListAux] at hmem
  | succ n ih =>
    intro l h
    match l with
    | [] => intro batch hmem; simp [chunkList, chunkListAux] at hmem
    | x :: xs =>
      rw [chunkList_cons b hb (x :: xs) (by simp)]
      intro batch hmem
      rcases List.mem_cons.mp hmem with hb1 | hb2
      · subst hb1
        constructor
        · match b with
          | bp + 1 => simp [List.take]
        · rw [List.length_take]; omega
      · exact ih ((x :: xs).drop b)
            (by rw [List.length_drop, List.length_cons]; rw [List.length_cons] at h; omega)
            batch hb2

theorem chunkList_ne_nil (b : Nat) (x : String) (xs : List String) :
    chunkList b (x :: xs) ≠ [] := by
  show ((x :: xs).take b) :: chunkListAux b xs.length ((x :: xs).drop b) ≠ []
  exact List.cons_ne_nil _ _

theorem chunkList_nil_iff (b : Nat) (l : List String) :
    chunkList b l = [] ↔ l = [] := by
  constructor
  · intro h
    match l with
    | [] => rfl
    | x :: xs => exact absurd h (chunkList_ne_nil b x xs)
  · intro h; subst h; rfl

theorem chunkList_dropLast (b : Nat) (hb : 1 ≤ b) :
    ∀ (n : Nat) (l : List String), l.length ≤ n →
      ∀ batch ∈ (chunkList b l).dropLast, batch.length = b := by
  intro n
  induction n with
  | zero =>
    intro l h
    have : l = [] := List.length_eq_zero.mp (by omega)
    subst this
    intro batch hmem
    simp [chunkList, chunkListAux] at hmem
  | succ n ih =>
    intro l h
    match l with
    | [] => intro batch hmem; simp [chunkList, chunkListAux] at hmem
    | x :: xs =>
      rw [chunkList_cons b hb (x :: xs) (by simp)]
      by_cases hrest : chunkList b ((x :: xs).drop b) = []
      · rw [hrest]
        intro batch hmem
        simp at hmem
      · have hdrop_ne : (x :: xs).drop b ≠ [] := by
          intro hc
          exact hrest ((chunkList_nil_iff b _).mpr hc)
        have hlong : b < (x :: xs).length := by
          by_contra hc
          exact hdrop_ne (List.drop_eq_nil_of_le (by omega))
        intro batch hmem
        rw [List.dropLast_cons_of_ne_nil hrest] at hmem
        rcases List.mem_cons.mp hmem with hb1 | hb2
        · subst hb1
          rw [List.length_take]
          omega
        · exact ih ((x :: xs).drop b)
            (by rw [List.length_drop, List.length_cons]; rw [List.length_cons] at h; omega)
            batch hb2

theorem readBatchesAux_closed (f : LFile) (b : Int) (fuel : Nat) (s : LRState)
    (h : s.isClosed = true) (hf : 1 ≤ fuel) :
    readBatchesAux f b fuel s = (Except.ok [], s) := by
  match fuel with
  | fuel + 1 => simp [readBatchesAux, isEOF, h]

theorem readBatchesAux_open_step (f : LFile) (b : Int) (fuel : Nat) (s : LRState)
    (h2 : s.isClosed = false) :
    readBatchesAux f b (fuel + 1) s
      = match readLines f b s with
        | (Except.error e, s1) => (Except.error e, s1)
        | (Except.ok [], s1) => (Except.ok [], s1)
        | (Except.ok (x :: xs), s1) =>
          match readBatchesAux f b fuel s1 with
          | (Except.error e, s2) => (Except.error e, s2)
          | (Except.ok rest, s2) => (Except.ok ((x :: xs) :: rest), s2) := by
  simp [readBatchesAux, isEOF, h2]

theorem readBatchesAux_spec (L : List String) (b : Int) (hb : 1 ≤ b) :
    ∀ (fuel : Nat) (s : LRState), s.handle = true → s.isClosed = false →
      L.length - s.pos + 1 ≤ fuel →
      ∃ s1, readBatchesAux (stringFile L) b fuel s
          = (Except.ok (chunkList b.toNat (L.drop s.pos)), s1) := by
  intro fuel
  induction fuel with
  | zero => intro s _ _ h; omega
  | succ fuel ih =>
    intro s h1 h2 hf
    have hbn : 1 ≤ b.toNat := by omega
    by_cases hrem : L.length - s.pos = 0
    · have hdrop : L.drop s.pos = [] := List.drop_eq_nil_of_le (by omega)
      obtain ⟨s1, he, e1, e2⟩ := readLinesAux_all L b.toNat s h1 h2 (by omega)
      refine ⟨s1, ?_⟩
      rw [hdrop] at he ⊢
      simp [readBatchesAux, isEOF, h2, readLines, he, chunkList, chunkListAux]
    · rcases le_or_lt b.toNat (L.length - s.pos) with hle | hlt
      · obtain ⟨s1, he, e1, e2, e3⟩ := readLinesAux_take L b.toNat s h1 h2 hle
        have hmatch : (L.drop s.pos).take b.toNat ≠ [] := by
          have hlen : ((L.drop s.pos).take b.toNat).length = b.toNat := by
            rw [List.length_take, List.length_drop]; omega
          intro hc
          rw [hc] at hlen
          simp at hlen
          omega
        obtain ⟨s2, he2⟩ := ih s1 e1 e2 (by rw [e3]; omega)
        have hnext : L.drop s1.pos = (L.drop s.pos).drop b.toNat := by
          rw [e3, List.drop_drop, Nat.add_comm]
        refine ⟨s2, ?_⟩
        rw [chunkList_cons b.toNat hbn (L.drop s.pos)
          (by intro hc; rw [hc] at hmatch; simp at hmatch)]
        rw [hnext] at he2
        rw [readBatchesAux_open_step (stringFile L) b fuel s h2, readLines, he]
        rcases hm : (L.drop s.pos).take b.toNat with _ | ⟨y, ys⟩
        · exact absurd hm hmatch
        · simp [he2]
      · obtain ⟨s1, he, e1, e2⟩ := readLinesAux_all L b.toNat s h1 h2 hlt
        have hne : L.drop s.pos ≠ [] := by
          intro hc
          have := congrArg List.length hc
          rw [List.length_drop] at this
          simp at this
          omega
        have htake : (L.drop s.pos).take b.toNat = L.drop s.pos :=
          List.take_of_length_le (by rw [List.length_drop]; omega)
        have hdropb : (L.drop s.pos).drop b.toNat = [] :=
          List.drop_eq_nil_of_le (by rw [List.length_drop]; omega)
        refine ⟨s1, ?_⟩
        rw [chunkList_cons b.toNat hbn (L.drop s.pos) hne, htake, hdropb]
        rw [readBatchesAux_open_step (stringFile L) b fuel s h2, readLines, he]
        rcases hm : L.drop s.pos with _ | ⟨y, ys⟩
        · exact absurd hm hne
        · simp [readBatchesAux_closed (stringFile L) b fuel s1 e2 (by omega),
            chunkList, chunkListAux]

/-- Claim C9: on an open reader with `N` remaining lines and batch size
`b ≥ 1`, draining `readBatches()` yields exactly `⌈N / b⌉` batches whose
concatenation is the remaining lines in order; every batch except possibly
the last has exactly `b` lines, every batch is non-empty with at most `b`
lines, and the loop terminates normally. -/
theorem readBatches_spec (L : List String) (b : Int) (s : LRState)
    (hb : 1 ≤ b) (h1 : s.handle = true) (h2 : s.isClosed = false) :
    (readBatches (stringFile L) b s).1
        = Except.ok (chunkList b.toNat (L.drop s.pos)) ∧
      (chunkList b.toNat (L.drop s.pos)).flatten = L.drop s.pos ∧
      (chunkList b.toNat (L.drop s.pos)).length
          = ((L.length - s.pos) + b.toNat - 1) / b.toNat ∧
      (∀ batch ∈ (chunkList b.toNat (L.drop s.pos)).dropLast, batch.length = b.toNat) ∧
      (∀ batch ∈ chunkList b.toNat (L.drop s.pos), batch ≠ [] ∧ batch.length ≤ b.toNat) := by
  have hbn : 1 ≤ b.toNat := by omega
  have hfuel : L.length - s.pos + 1 ≤ (stringFile L).length + 1 := by
    rw [length_stringFile]; omega
  obtain ⟨s1, he⟩ := readBatchesAux_spec L b hb ((stringFile L).length + 1) s h1 h2 hfuel
  refine ⟨by rw [readBatches, he], ?_, ?_, ?_, ?_⟩
  · exact chunkList_flatten b.toNat hbn (L.drop s.pos).length _ (le_refl _)
  · rw [chunkList_length b.toNat hbn (L.drop s.pos).length _ (le_refl _), List.length_drop]
  · exact chunkList_dropLast b.toNat hbn (L.drop s.pos).length _ (le_refl _)
  · exact chunkList_batches b.toNat hbn (L.drop s.pos).length _ (le_refl _)

theorem readBatches_spec_witness :
    (readBatches (stringFile ["L1", "L2", "L3", "L4", "L5"]) 2 baseOpened).1
        = Except.ok [["L1", "L2"], ["L3", "L4"], ["L5"]] := by
  have h := (readBatches_spec ["L1", "L2", "L3", "L4", "L5"] 2 baseOpened
    (by decide) rfl rfl).1
  rw [h]
  rfl

theorem skipLines_readLine_equiv_witness :
    (skipLines (stringFile ["a", "b"]) ((1 : Nat) : Int) baseOpened).1
        = Except.ok (min 1 (["a", "b"].length - baseOpened.pos)) ∧
      readLine (stringFile ["a", "b"]) (skipLines (stringFile ["a", "b"]) ((1 : Nat) : Int) baseOpened).2
        = seqLast (stringFile ["a", "b"]) 1 baseOpened := by
  have h := skipLines_readLine_equiv ["a", "b"] 1 baseOpened rfl rfl
  exact ⟨h.1, h.2 (by decide)⟩

theorem mapGet_mem (m : List (Nat × String)) (n : Nat) (v : String)
    (h : mapGet m n = some v) : (n, v) ∈ m := by
  induction m with
  | nil => simp [mapGet] at h
  | cons p rest ih =>
    rcases p with ⟨k, w⟩
    by_cases hk : k = n
    · subst hk
      rw [mapGet, if_pos rfl] at h
      exact List.mem_cons.mpr (Or.inl (by rw [Option.some_inj.mp h]))
    · rw [mapGet, if_neg hk] at h
      exact List.mem_cons.mpr (Or.inr (ih h))

theorem mem_mapSet (m : List (Nat × String)) (n : Nat) (v : String) :
    ∀ p ∈ mapSet m n v, p = (n, v) ∨ p ∈ m := by
  induction m with
  | nil => intro p hp; simp [mapSet] at hp; exact Or.inl hp
  | cons q rest ih =>
    rcases q with ⟨k, w⟩
    intro p hp
    by_cases hk : k = n
    · subst hk
      rw [mapSet, if_pos rfl] at hp
      rcases List.mem_cons.mp hp with h | h
      · exact Or.inl h
      · exact Or.inr (List.mem_cons.mpr (Or.inr h))
    · rw [mapSet, if_neg hk] at hp
      rcases List.mem_cons.mp hp with h | h
      · exact Or.inr (List.mem_cons.mpr (Or.inl h))
      · rcases ih p h with h2 | h2
        · exact Or.inl h2
        · exact Or.inr (List.mem_cons.mpr (Or.inr h2))

theorem mapDelete_sublist (m : List (Nat × String)) (n : Nat) :
    List.Sublist (mapDelete m n) m := by
  induction m with
  | nil => exact List.Sublist.refl []
  | cons q rest ih =>
    rcases q with ⟨k, w⟩
    by_cases hk : k = n
    · rw [mapDelete, if_pos hk]
      exact List.sublist_cons_self (k, w) rest
    · rw [mapDelete, if_neg hk]
      exact List.Sublist.cons₂ (k, w) ih

theorem foldl_mapDelete_sublist (ks : List Nat) :
    ∀ m : List (Nat × String), List.Sublist (ks.foldl mapDelete m) m := by
  induction ks with
  | nil => intro m; exact List.Sublist.refl m
  | cons k rest ih =>
    intro m
    exact List.Sublist.trans (ih (mapDelete m k)) (mapDelete_sublist m k)

theorem manageCache_cache_sublist (st : ELRState) :
    List.Sublist (manageCache st).cache st.cache := by
  rw [manageCache]
  split
  · exact foldl_mapDelete_sublist _ st.cache
  · exact List.Sublist.refl st.cache

theorem manageCache_base (st : ELRState) : (manageCache st).base = st.base := by
  rw [manageCache]; split <;> rfl

theorem manageCache_cacheSize (st : ELRState) :
    (manageCache st).cacheSize = st.cacheSize := by
  rw [manageCache]; split <;> rfl

theorem manageCache_linePointer (st : ELRState) :
    (manageCache st).linePointer = st.linePointer := by
  rw [manageCache]; split <;> rfl

theorem CacheOK_sublist (L : List String) (m1 m2 : List (Nat × String))
    (hs : List.Sublist m1 m2) (h : CacheOK L m2) : CacheOK L m1 :=
  fun p hp => h p (hs.mem hp)

theorem CacheOK_set (L : List String) (m : List (Nat × String)) (n : Nat) (v : String)
    (h : CacheOK L m) (h1 : 1 ≤ n) (h2 : n ≤ L.length) (h3 : L[n - 1]? = some v) :
    CacheOK L (mapSet m n v) := by
  intro p hp
  rcases mem_mapSet m n v p hp with he | hm
  · subst he; exact ⟨h1, h2, h3⟩
  · exact h p hm

theorem eReadLine_not_open (f : LFile) (st : ELRState) (h : st.base.handle = false) :
    eReadLine f st = (Except.error Err.notOpen, st) := by
  rw [eReadLine, readLine_no_handle f st.base h]

theorem eReadLine_step_run (L : List String) (st : ELRState)
    (hO : OpenSt L st) (hC : CacheOK L st.cache) (h4 : st.linePointer < L.length) :
    ∃ st1, eReadLine (stringFile L) st = (Except.ok (some L[st.linePointer]), st1)
      ∧ OpenSt L st1 ∧ CacheOK L st1.cache ∧ st1.linePointer = st.linePointer + 1
      ∧ st1.cacheSize = st.cacheSize := by
  obtain ⟨⟨bh, bp, bc, bl⟩, cach, csz, lp⟩ := st
  obtain ⟨h1, h2, h3, _⟩ := hO
  have h1a : bh = true := h1
  have h2a : bc = false := h2
  have h3a : bp = lp := h3
  subst h1a
  subst h2a
  subst h3a
  have h4a : bp < L.length := h4
  have hCa : CacheOK L cach := hC
  have hb := readLine_step L ⟨true, bp, false, bl⟩ rfl rfl h4a
  refine ⟨manageCache ⟨⟨true, bp + 1, false, some L[bp]⟩,
      mapSet cach (bp + 1) L[bp], csz, bp + 1⟩, ?_, ?_, ?_, ?_, ?_⟩
  · simp only [eReadLine, hb]
  · refine ⟨?_, ?_, ?_, ?_⟩
    · rw [manageCache_base]
    · rw [manageCache_base]
    · rw [manageCache_base, manageCache_linePointer]
    · rw [manageCache_linePointer]
      show bp + 1 ≤ L.length
      omega
  · refine CacheOK_sublist L _ _ (manageCache_cache_sublist _) ?_
    refine CacheOK_set L cach (bp + 1) (L[bp]) hCa (by omega) (by omega) ?_
    rw [show bp + 1 - 1 = bp from by omega]
    exact List.getElem?_eq_getElem h4a
  · rw [manageCache_linePointer]
  · rw [manageCache_cacheSize]

theorem eReadLine_eof_spec (L : List String) (st : ELRState)
    (hO : OpenSt L st) (h4 : st.linePointer = L.length) :
    eReadLine (stringFile L) st = (Except.ok none, { st with base := close st.base })
    ∧ ClosedSt L { st with base := close st.base } := by
  obtain ⟨h1, h2, h3, _⟩ := hO
  have hb := readLine_eof L st.base h1 h2 (by omega)
  constructor
  · rw [eReadLine, hb]
  · refine ⟨?_, ?_, h4⟩ <;> simp [close, h2]

theorem eReadLine_EInv (L : List String) (st : ELRState) (h : EInv L st) :
    EInv L (eReadLine (stringFile L) st).2 := by
  obtain ⟨hC, hO | hCl⟩ := h
  · rcases Nat.lt_or_ge st.linePointer L.length with hlt | hge
    · obtain ⟨st1, hr, hO1, hC1, _, _⟩ := eReadLine_step_run L st hO hC hlt
      rw [hr]
      exact ⟨hC1, Or.inl hO1⟩
    · have h4 : st.linePointer = L.length := by
        have := hO.2.2.2; omega
      obtain ⟨he, hcl⟩ := eReadLine_eof_spec L st hO h4
      rw [he]
      exact ⟨hC, Or.inr hcl⟩
  · rw [eReadLine_not_open (stringFile L) st hCl.1]
    exact ⟨hC, Or.inr hCl⟩

theorem eRestart_run (L : List String) (st : ELRState) (h : EInv L st) :
    eRestart st = (Except.ok (),
      { st with base := ⟨true, 0, false, st.base.currentLine⟩ }) := by
  obtain ⟨_, hO | hCl⟩ := h
  · obtain ⟨h1, h2, _, _⟩ := hO
    simp [eRestart, restart, close, openR, h1, h2]
  · obtain ⟨h1, h2, _⟩ := hCl
    simp [eRestart, restart, close, openR, h1, h2]

theorem eSkipLinesAux_run (L : List String) :
    ∀ (k acc : Nat) (st : ELRState), OpenSt L st → CacheOK L st.cache →
      ∃ st2, eSkipLinesAux (stringFile L) k acc st
          = (Except.ok (acc + min k (L.length - st.linePointer)), st2)
        ∧ CacheOK L st2.cache ∧ st2.cacheSize = st.cacheSize
        ∧ ((st.linePointer + k ≤ L.length ∧ OpenSt L st2
              ∧ st2.linePointer = st.linePointer + k)
           ∨ (L.length < st.linePointer + k ∧ ClosedSt L st2)) := by
  intro k
  induction k with
  | zero =>
    intro acc st hO hC
    refine ⟨st, by simp [eSkipLinesAux], hC, rfl, Or.inl ⟨?_, hO, rfl⟩⟩
    exact hO.2.2.2
  | succ k ih =>
    intro acc st hO hC
    rcases Nat.lt_or_ge st.linePointer L.length with hlt | hge
    · obtain ⟨st1, hr, hO1, hC1, hp1, hz1⟩ := eReadLine_step_run L st hO hC hlt
      obtain ⟨st2, he2, hC2, hz2, hcase⟩ := ih (acc + 1) st1 hO1 hC1
      refine ⟨st2, ?_, hC2, by omega, ?_⟩
      · rw [eSkipLinesAux, hr]
        show eSkipLinesAux (stringFile L) k (acc + 1) st1 = _
        rw [he2, hp1,
          show acc + 1 + min k (L.length - (st.linePointer + 1))
              = acc + min (k + 1) (L.length - st.linePointer) from by omega]
      · rcases hcase with ⟨hb2, hOx, hpx⟩ | ⟨hb2, hcx⟩
        · exact Or.inl ⟨by omega, hOx, by omega⟩
        · exact Or.inr ⟨by omega, hcx⟩
    · have h4 : st.linePointer = L.length := by
        have := hO.2.2.2; omega
      obtain ⟨he, hcl⟩ := eReadLine_eof_spec L st hO h4
      refine ⟨{ st with base := close st.base }, ?_, hC, rfl, Or.inr ⟨by omega, hcl⟩⟩
      rw [eSkipLinesAux, he]
      show (Except.ok acc, { st with base := close st.base }) = _
      rw [show min (k + 1) (L.length - st.linePointer) = 0 from by omega]
      rfl

theorem get_eq_of_idx_eq (L : List String) (i j : Nat) (hi : i < L.length)
    (hj : j < L.length) (h : i = j) : L[i] = L[j] := by
  subst h
  rfl

theorem eSkipLinesAux_not_open (f : LFile) (k acc : Nat) (st : ELRState)
    (h : st.base.handle = false) :
    eSkipLinesAux f (k + 1) acc st = (Except.error Err.notOpen, st) := by
  rw [eSkipLinesAux, eReadLine_not_open f st h]

theorem readLineAt_correct (L : List String) (n : Nat) (st : ELRState)
    (hInv : EInv L st) (hn1 : 1 ≤ n) (hn2 : n ≤ L.length) :
    (readLineAt (stringFile L) n st).1 = Except.ok (some (L.get ⟨n - 1, by omega⟩))
    ∧ EInv L (readLineAt (stringFile L) n st).2 := by
  obtain ⟨hC, hD⟩ := hInv
  have hn0 : ¬ n < 1 := by omega
  have hidxn : n - 1 < L.length := by omega
  rcases hg : mapGet st.cache n with _ | v
  · -- cache miss
    by_cases hle : n ≤ st.linePointer
    · -- behind or at the pointer: restart then skip from the beginning
      have hre := eRestart_run L st ⟨hC, hD⟩
      have hOA : OpenSt L { st with base := ⟨true, 0, false, st.base.currentLine⟩, linePointer := 0 } :=
        ⟨rfl, rfl, rfl, Nat.zero_le L.length⟩
      have hCA : CacheOK L ({ st with base := ⟨true, 0, false, st.base.currentLine⟩, linePointer := 0 }).cache :=
        hC
      obtain ⟨st2, hsk, hC2, hz2, hcase⟩ :=
        eSkipLinesAux_run L (n - 1) 0
          { st with base := ⟨true, 0, false, st.base.currentLine⟩, linePointer := 0 }
          hOA hCA
      rcases hcase with ⟨hb2, hO2, hp2⟩ | ⟨hb2, _⟩
      · have hp2x : st2.linePointer = 0 + (n - 1) := hp2
        have hp2a : st2.linePointer = n - 1 := by omega
        obtain ⟨st3, hrd, hO3, hC3, hp3, hz3⟩ :=
          eReadLine_step_run L st2 hO2 hC2 (by omega)
        have hval : L[st2.linePointer] = L.get ⟨n - 1, hidxn⟩ :=
          get_eq_of_idx_eq L st2.linePointer (n - 1) (by omega) hidxn hp2a
        have htn : ((n : Int) - ((0 : Nat) : Int) - 1).toNat = n - 1 := by omega
        have hmain : readLineAt (stringFile L) n st
            = (Except.ok (some L[st2.linePointer]),
               manageCache { st3 with cache := mapSet st3.cache n L[st2.linePointer] }) := by
          rw [readLineAt, if_neg hn0, hg]
          simp only [hre, if_pos hle, eSkipLines, htn, hsk, hrd]
        rw [hmain, hval]
        refine ⟨rfl, ?_, ?_⟩
        · refine CacheOK_sublist L _ _ (manageCache_cache_sublist _) ?_
          refine CacheOK_set L st3.cache n (L.get ⟨n - 1, hidxn⟩) hC3 (by omega) (by omega) ?_
          rw [List.getElem?_eq_getElem hidxn]
          rfl
        · refine Or.inl ⟨?_, ?_, ?_, ?_⟩
          · rw [manageCache_base]; exact hO3.1
          · rw [manageCache_base]; exact hO3.2.1
          · rw [manageCache_base, manageCache_linePointer]; exact hO3.2.2.1
          · rw [manageCache_linePointer]; exact hO3.2.2.2
      · exfalso
        have hb2a : L.length < 0 + (n - 1) := hb2
        omega
    · -- ahead of the pointer: skip forward from the current position
      have hO : OpenSt L st := by
        rcases hD with hO | hCl
        · exact hO
        · exfalso
          have := hCl.2.2
          omega
      obtain ⟨st2, hsk, hC2, hz2, hcase⟩ :=
        eSkipLinesAux_run L (n - 1 - st.linePointer) 0 st hO hC
      rcases hcase with ⟨hb2, hO2, hp2⟩ | ⟨hb2, _⟩
      · have hp2a : st2.linePointer = n - 1 := by
          rw [hp2]; omega
        obtain ⟨st3, hrd, hO3, hC3, hp3, hz3⟩ :=
          eReadLine_step_run L st2 hO2 hC2 (by omega)
        have hval : L[st2.linePointer] = L.get ⟨n - 1, hidxn⟩ :=
          get_eq_of_idx_eq L st2.linePointer (n - 1) (by omega) hidxn hp2a
        have htn : ((n : Int) - (st.linePointer : Int) - 1).toNat = n - 1 - st.linePointer := by
          omega
        have hmain : readLineAt (stringFile L) n st
            = (Except.ok (some L[st2.linePointer]),
               manageCache { st3 with cache := mapSet st3.cache n L[st2.linePointer] }) := by
          rw [readLineAt, if_neg hn0, hg]
          simp only [if_neg hle, eSkipLines, htn, hsk, hrd]
        rw [hmain, hval]
        refine ⟨rfl, ?_, ?_⟩
        · refine CacheOK_sublist L _ _ (manageCache_cache_sublist _) ?_
          refine CacheOK_set L st3.cache n (L.get ⟨n - 1, hidxn⟩) hC3 (by omega) (by omega) ?_
          rw [List.getElem?_eq_getElem hidxn]
          rfl
        · refine Or.inl ⟨?_, ?_, ?_, ?_⟩
          · rw [manageCache_base]; exact hO3.1
          · rw [manageCache_base]; exact hO3.2.1
          · rw [manageCache_base, manageCache_linePointer]; exact hO3.2.2.1
          · rw [manageCache_linePointer]; exact hO3.2.2.2
      · exfalso
        omega
  · -- cache hit
    have hmem := mapGet_mem st.cache n v hg
    obtain ⟨hk1, hk2, hk3⟩ := hC (n, v) hmem
    have hv : L.get ⟨n - 1, hidxn⟩ = v := by
      rw [List.getElem?_eq_getElem hidxn] at hk3
      exact Option.some_inj.mp hk3
    have hmain : readLineAt (stringFile L) n st = (Except.ok (some v), st) := by
      rw [readLineAt, if_neg hn0, hg]
    rw [hmain, hv]
    exact ⟨rfl, hC, hD⟩

theorem readLineAt_EInv (L : List String) (n : Nat) (st : ELRState) (hInv : EInv L st) :
    EInv L (readLineAt (stringFile L) n st).2 := by
  by_cases hn0 : n < 1
  · rw [readLineAt, if_pos hn0]
    exact hInv
  · rcases hg : mapGet st.cache n with _ | v
    · by_cases hnN : n ≤ L.length
      · exact (readLineAt_correct L n st hInv (by omega) hnN).2
      · obtain ⟨hC, hD⟩ := hInv
        have hle : ¬ n ≤ st.linePointer := by
          rcases hD with hO | hCl
          · have := hO.2.2.2; omega
          · have := hCl.2.2; omega
        have htn : ((n : Int) - (st.linePointer : Int) - 1).toNat
            = n - 1 - st.linePointer := by omega
        rcases hD with hO | hCl
        · obtain ⟨st2, hsk, hC2, hz2, hcase⟩ :=
            eSkipLinesAux_run L (n - 1 - st.linePointer) 0 st hO hC
          rcases hcase with ⟨hb2, hO2, hp2⟩ | ⟨hb2, hCl2⟩
          · have hp2a : st2.linePointer = L.length := by
              have := hO.2.2.2
              omega
            obtain ⟨he3, hcl3⟩ := eReadLine_eof_spec L st2 hO2 hp2a
            have hmain : readLineAt (stringFile L) n st
                = (Except.ok none, { st2 with base := close st2.base }) := by
              rw [readLineAt, if_neg hn0, hg]
              simp only [if_neg hle, eSkipLines, htn, hsk, he3]
            rw [hmain]
            exact ⟨hC2, Or.inr hcl3⟩
          · have hrd := eReadLine_not_open (stringFile L) st2 hCl2.1
            have hmain : readLineAt (stringFile L) n st
                = (Except.error Err.notOpen, st2) := by
              rw [readLineAt, if_neg hn0, hg]
              simp only [if_neg hle, eSkipLines, htn, hsk, hrd]
            rw [hmain]
            exact ⟨hC2, Or.inr hCl2⟩
        · have hptr := hCl.2.2
          by_cases hn1 : n = L.length + 1
          · have hk0 : n - 1 - st.linePointer = 0 := by omega
            have hrd := eReadLine_not_open (stringFile L) st hCl.1
            have hmain : readLineAt (stringFile L) n st
                = (Except.error Err.notOpen, st) := by
              rw [readLineAt, if_neg hn0, hg]
              simp only [if_neg hle, eSkipLines, htn, hk0, eSkipLinesAux, hrd]
            rw [hmain]
            exact ⟨hC, Or.inr hCl⟩
          · have hk1 : n - 1 - st.linePointer = (n - 2 - st.linePointer) + 1 := by omega
            have hsk := eSkipLinesAux_not_open (stringFile L)
              (n - 2 - st.linePointer) 0 st hCl.1
            have hmain : readLineAt (stringFile L) n st
                = (Except.error Err.notOpen, st) := by
              rw [readLineAt, if_neg hn0, hg]
              simp only [if_neg hle, eSkipLines, htn, hk1, hsk]
            rw [hmain]
            exact ⟨hC, Or.inr hCl⟩
    · have hmain : readLineAt (stringFile L) n st = (Except.ok (some v), st) := by
        rw [readLineAt, if_neg hn0, hg]
      rw [hmain]
      exact hInv

theorem runOps_EInv (L : List String) (ops : List EOp) :
    ∀ st, EInv L st → EInv L (runOps (stringFile L) ops st) := by
  induction ops with
  | nil => intro st h; exact h
  | cons op rest ih =>
    intro st h
    have h1 : EInv L (runOp (stringFile L) st op) := by
      cases op with
      | read => exact eReadLine_EInv L st h
      | readAt n => exact readLineAt_EInv L n st h
    exact ih (runOp (stringFile L) st op) h1

theorem eOpened_EInv (L : List String) (c : Nat) : EInv L (eOpened c) := by
  constructor
  · intro p hp
    exact absurd hp (List.not_mem_nil p)
  · exact Or.inl ⟨rfl, rfl, rfl, Nat.zero_le _⟩

/-- Claim C1: on an indexed reader opened over a file with `N` lines, after
any sequence of prior `readLine`/`readLineAt` operations (forward,
backward, repeated, past the end, with any cache capacity),
`readLineAt(n)` for `1 ≤ n ≤ N` returns exactly the `n`-th line of the
file — the content plain sequential reads produce at that position. -/
theorem readLineAt_eq_sequential (L : List String) (c : Nat) (ops : List EOp) (n : Nat)
    (hn1 : 1 ≤ n) (hn2 : n ≤ L.length) :
    (readLineAt (stringFile L) n (runOps (stringFile L) ops (eOpened c))).1
      = Except.ok (some (L.get ⟨n - 1, by omega⟩)) :=
  (readLineAt_correct L n _ (runOps_EInv L ops _ (eOpened_EInv L c)) hn1 hn2).1

theorem readLineAt_eq_sequential_witness :
    (readLineAt (stringFile ["a", "b"]) 2
        (runOps (stringFile ["a", "b"]) [EOp.read] (eOpened 1000))).1
      = Except.ok (some "b") := by
  have h := readLineAt_eq_sequential ["a", "b"] 1000 [EOp.read] 2 (by decide) (by decide)
  exact h.trans (by rfl)

/-- Claim C4 counterexample: on the file
`["Alpha","Bravo","Charlie","Delta","Echo"]`, after `readLineAt(3)` the
skipped lines 1 and 2 are already in the cache (the overridden `readLine`
caches them), so `readLineAt(1)` is a cache hit: no restart happens and
the line-number counter stays at 3, not 2. -/
theorem readLineAt_example_counter_cex :
    getCurrentLineNumber (readLineAt (stringFile ["Alpha", "Bravo", "Charlie", "Delta", "Echo"]) 1
        (readLineAt (stringFile ["Alpha", "Bravo", "Charlie", "Delta", "Echo"]) 3
          (eOpened 1000)).2).2 ≠ 2 := by
  decide

/-- Claim C4 (amended): on a fresh indexed reader over
`["Alpha","Bravo","Charlie","Delta","Echo"]`, `readLineAt(3)` returns
`"Charlie"` and leaves the counter at 3; `readLineAt(1)` then returns
`"Alpha"` served from the cache (the lines skipped on the way to 3 were
cached by the overridden `readLine`), with no restart and the whole state
unchanged — in particular the counter stays 3; `readLineAt(2)` likewise
returns `"Bravo"` from the cache without changing the state. -/
theorem readLineAt_example_trace :
    (let f := stringFile ["Alpha", "Bravo", "Charlie", "Delta", "Echo"]
     let r1 := readLineAt f 3 (eOpened 1000)
     let r2 := readLineAt f 1 r1.2
     let r3 := readLineAt f 2 r2.2
     r1.1 = Except.ok (some "Charlie") ∧ getCurrentLineNumber r1.2 = 3
       ∧ r2.1 = Except.ok (some "Alpha") ∧ r2.2 = r1.2
       ∧ r3.1 = Except.ok (some "Bravo") ∧ r3.2 = r1.2) :=
  ⟨rfl, rfl, rfl, rfl, rfl, rfl⟩

theorem mem_keysOf_iff (m : List (Nat × String)) (a : Nat) :
    a ∈ keysOf m ↔ ∃ v, (a, v) ∈ m := by
  rw [keysOf, List.mem_map]
  constructor
  · rintro ⟨⟨k, v⟩, hm, hk⟩
    have hk2 : k = a := hk
    subst hk2
    exact ⟨v, hm⟩
  · rintro ⟨v, hm⟩
    exact ⟨(a, v), hm, rfl⟩

theorem mem_keysOf_mapSet (m : List (Nat × String)) (n : Nat) (v : String) (a : Nat)
    (h : a ∈ keysOf (mapSet m n v)) : a = n ∨ a ∈ keysOf m := by
  obtain ⟨w, hw⟩ := (mem_keysOf_iff _ a).mp h
  rcases mem_mapSet m n v (a, w) hw with he | hm
  · exact Or.inl (congrArg Prod.fst he)
  · exact Or.inr ((mem_keysOf_iff _ a).mpr ⟨w, hm⟩)

theorem nodup_keysOf_mapSet (m : List (Nat × String)) (n : Nat) (v : String)
    (h : (keysOf m).Nodup) : (keysOf (mapSet m n v)).Nodup := by
  induction m with
  | nil => simp [mapSet, keysOf]
  | cons q rest ih =>
    rcases q with ⟨k, w⟩
    rw [keysOf, List.map_cons, List.nodup_cons] at h
    by_cases hk : k = n
    · subst hk
      rw [mapSet, if_pos rfl, keysOf, List.map_cons, List.nodup_cons]
      exact h
    · rw [mapSet, if_neg hk, keysOf, List.map_cons, List.nodup_cons]
      refine ⟨?_, ih h.2⟩
      intro hc
      rcases mem_keysOf_mapSet rest n v k hc with he | hm
      · exact hk he
      · exact h.1 hm

theorem length_mapSet_le (m : List (Nat × String)) (n : Nat) (v : String) :
    (mapSet m n v).length ≤ m.length + 1 := by
  induction m with
  | nil => simp [mapSet]
  | cons q rest ih =>
    rcases q with ⟨k, w⟩
    by_cases hk : k = n
    · rw [mapSet, if_pos hk]
      simp
    · rw [mapSet, if_neg hk, List.length_cons, List.length_cons]
      omega

theorem length_mapDelete_of_mem (m : List (Nat × String)) (n : Nat)
    (h : n ∈ keysOf m) : (mapDelete m n).length + 1 = m.length := by
  induction m with
  | nil => simp [keysOf] at h
  | cons q rest ih =>
    rcases q with ⟨k, w⟩
    by_cases hk : k = n
    · rw [mapDelete, if_pos hk]
      rfl
    · rw [keysOf, List.map_cons, List.mem_cons] at h
      rcases h with he | hm
      · exact absurd he.symm hk
      · rw [mapDelete, if_neg hk, List.length_cons, List.length_cons, ih hm]

theorem mem_mapDelete_iff (m : List (Nat × String)) (n : Nat)
    (hnd : (keysOf m).Nodup) (p : Nat × String) :
    p ∈ mapDelete m n ↔ p ∈ m ∧ p.1 ≠ n := by
  induction m with
  | nil => simp [mapDelete]
  | cons q rest ih =>
    rcases q with ⟨k, w⟩
    rw [keysOf, List.map_cons, List.nodup_cons] at hnd
    by_cases hk : k = n
    · subst hk
      rw [mapDelete, if_pos rfl]
      constructor
      · intro hp
        refine ⟨List.mem_cons.mpr (Or.inr hp), ?_⟩
        intro hc
        have h1 : p.1 ∈ keysOf rest := (mem_keysOf_iff rest p.1).mpr ⟨p.2, hp⟩
        rw [hc] at h1
        exact hnd.1 h1
      · rintro ⟨hp, hne⟩
        rcases List.mem_cons.mp hp with he | hm
        · exact absurd (congrArg Prod.fst he) hne
        · exact hm
    · rw [mapDelete, if_neg hk, List.mem_cons, ih hnd.2, List.mem_cons]
      constructor
      · rintro (he | ⟨hm, hne⟩)
        · subst he
          exact ⟨Or.inl rfl, hk⟩
        · exact ⟨Or.inr hm, hne⟩
      · rintro ⟨he | hm, hne⟩
        · exact Or.inl he
        · exact Or.inr ⟨hm, hne⟩

theorem nodup_keysOf_mapDelete (m : List (Nat × String)) (n : Nat)
    (hnd : (keysOf m).Nodup) : (keysOf (mapDelete m n)).Nodup :=
  hnd.sublist ((mapDelete_sublist m n).map Prod.fst)

theorem mem_foldl_mapDelete (ks : List Nat) :
    ∀ m : List (Nat × String), (keysOf m).Nodup → ∀ p : Nat × String,
      (p ∈ ks.foldl mapDelete m ↔ p ∈ m ∧ p.1 ∉ ks) := by
  induction ks with
  | nil => intro m _ p; simp
  | cons k rest ih =>
    intro m hnd p
    rw [List.foldl_cons, ih (mapDelete m k) (nodup_keysOf_mapDelete m k hnd) p,
      mem_mapDelete_iff m k hnd p, List.mem_cons]
    constructor
    · rintro ⟨⟨hm, h1⟩, h2⟩
      exact ⟨hm, by rintro (hc | hc); exact h1 hc; exact h2 hc⟩
    · rintro ⟨hm, h3⟩
      exact ⟨⟨hm, fun hc => h3 (Or.inl hc)⟩, fun hc => h3 (Or.inr hc)⟩

theorem nodup_keysOf_foldl_mapDelete (ks : List Nat) :
    ∀ m : List (Nat × String), (keysOf m).Nodup →
      (keysOf (ks.foldl mapDelete m)).Nodup := by
  induction ks with
  | nil => intro m h; exact h
  | cons k rest ih =>
    intro m hnd
    rw [List.foldl_cons]
    exact ih (mapDelete m k) (nodup_keysOf_mapDelete m k hnd)

theorem length_foldl_mapDelete (ks : List Nat) :
    ∀ m : List (Nat × String), (keysOf m).Nodup → ks.Nodup →
      (∀ k ∈ ks, k ∈ keysOf m) →
      (ks.foldl mapDelete m).length + ks.length = m.length := by
  induction ks with
  | nil => intro m _ _ _; simp
  | cons k rest ih =>
    intro m hnd hksnd hmem
    rw [List.nodup_cons] at hksnd
    have hk : k ∈ keysOf m := hmem k (List.mem_cons_self k rest)
    have hlen := length_mapDelete_of_mem m k hk
    have hmem2 : ∀ a ∈ rest, a ∈ keysOf (mapDelete m k) := by
      intro a ha
      have hne : a ≠ k := fun hc => hksnd.1 (hc ▸ ha)
      obtain ⟨v, hv⟩ := (mem_keysOf_iff m a).mp (hmem a (List.mem_cons.mpr (Or.inr ha)))
      exact (mem_keysOf_iff _ a).mpr ⟨v, (mem_mapDelete_iff m k hnd (a, v)).mpr ⟨hv, hne⟩⟩
    have := ih (mapDelete m k) (nodup_keysOf_mapDelete m k hnd) hksnd.2 hmem2
    rw [List.foldl_cons, List.length_cons]
    omega

theorem manageCache_spec (st : ELRState) (hnd : (keysOf st.cache).Nodup)
    (hbig : st.cacheSize < st.cache.length) :
    (manageCache st).cache.length + st.cacheSize / 2 = st.cache.length
    ∧ (∀ p ∈ st.cache, ∀ q ∈ st.cache, p ∈ (manageCache st).cache →
        q ∉ (manageCache st).cache → q.1 < p.1) := by
  have hperm := List.perm_insertionSort (fun a b => a ≤ b) (st.cache.map Prod.fst)
  have hsorted := List.sorted_insertionSort (fun a b => a ≤ b) (st.cache.map Prod.fst)
  have hsnd : (List.insertionSort (fun a b => a ≤ b) (st.cache.map Prod.fst)).Nodup :=
    hperm.nodup_iff.mpr hnd
  have hslen : (List.insertionSort (fun a b => a ≤ b) (st.cache.map Prod.fst)).length
      = st.cache.length := by
    rw [hperm.length_eq, List.length_map]
  have hmc : (manageCache st).cache
      = ((List.insertionSort (fun a b => a ≤ b) (st.cache.map Prod.fst)).take
          (st.cacheSize / 2)).foldl mapDelete st.cache := by
    rw [manageCache, if_pos hbig]
  have htrnd : ((List.insertionSort (fun a b => a ≤ b) (st.cache.map Prod.fst)).take
      (st.cacheSize / 2)).Nodup :=
    hsnd.sublist (List.take_sublist _ _)
  have htrmem : ∀ k ∈ (List.insertionSort (fun a b => a ≤ b) (st.cache.map Prod.fst)).take
      (st.cacheSize / 2), k ∈ keysOf st.cache := by
    intro k hk
    exact hperm.mem_iff.mp (List.mem_of_mem_take hk)
  have htrlen : ((List.insertionSort (fun a b => a ≤ b) (st.cache.map Prod.fst)).take
      (st.cacheSize / 2)).length = st.cacheSize / 2 := by
    rw [List.length_take, hslen]
    omega
  constructor
  · rw [hmc]
    have := length_foldl_mapDelete _ st.cache hnd htrnd htrmem
    omega
  · intro p hp q hq hpin hqout
    rw [hmc, mem_foldl_mapDelete _ st.cache hnd] at hpin hqout
    have hqtr : q.1 ∈ (List.insertionSort (fun a b => a ≤ b) (st.cache.map Prod.fst)).take
        (st.cacheSize / 2) := by
      by_contra hc
      exact hqout ⟨hq, hc⟩
    have hptr : p.1 ∈ (List.insertionSort (fun a b => a ≤ b) (st.cache.map Prod.fst)).drop
        (st.cacheSize / 2) := by
      have hpk : p.1 ∈ List.insertionSort (fun a b => a ≤ b) (st.cache.map Prod.fst) :=
        hperm.mem_iff.mpr (List.mem_map.mpr ⟨p, hp, rfl⟩)
      rcases (List.mem_append.mp (by
        rw [List.take_append_drop]
        exact hpk : p.1 ∈ (List.insertionSort (fun a b => a ≤ b)
          (st.cache.map Prod.fst)).take (st.cacheSize / 2)
          ++ (List.insertionSort (fun a b => a ≤ b)
            (st.cache.map Prod.fst)).drop (st.cacheSize / 2))) with h1 | h2
      · exact absurd h1 hpin.2
      · exact h2
    have hle : q.1 ≤ p.1 := hsorted.rel_of_mem_take_of_mem_drop hqtr hptr
    have hne : q.1 ≠ p.1 := by
      intro hc
      have := List.take_append_drop (st.cacheSize / 2)
        (List.insertionSort (fun a b => a ≤ b) (st.cache.map Prod.fst))
      rw [← this] at hsnd
      rcases List.nodup_append.mp hsnd with ⟨-, -, hd⟩
      exact hd hqtr (hc ▸ hptr)
    omega

theorem manageCache_bound (st : ELRState) (h2 : 2 ≤ st.cacheSize)
    (hnd : (keysOf st.cache).Nodup) (hlen : st.cache.length ≤ st.cacheSize + 1) :
    (manageCache st).cache.length ≤ st.cacheSize := by
  by_cases hbig : st.cacheSize < st.cache.length
  · have := (manageCache_spec st hnd hbig).1
    omega
  · rw [manageCache, if_neg hbig]
    omega

theorem nodup_keysOf_manageCache (st : ELRState) (hnd : (keysOf st.cache).Nodup) :
    (keysOf (manageCache st).cache).Nodup :=
  hnd.sublist ((manageCache_cache_sublist st).map Prod.fst)

theorem eRestart_cache (st : ELRState) :
    (eRestart st).2.cache = st.cache ∧ (eRestart st).2.cacheSize = st.cacheSize := by
  rw [eRestart]
  rcases restart st.base with ⟨r2, b1⟩
  match r2 with
  | Except.error e => exact ⟨rfl, rfl⟩
  | Except.ok u => exact ⟨rfl, rfl⟩

theorem eReadLine_cache_bound (f : LFile) (st : ELRState) (h2 : 2 ≤ st.cacheSize)
    (hnd : (keysOf st.cache).Nodup) (hlen : st.cache.length ≤ st.cacheSize) :
    (eReadLine f st).2.cache.length ≤ st.cacheSize
    ∧ (keysOf (eReadLine f st).2.cache).Nodup
    ∧ (eReadLine f st).2.cacheSize = st.cacheSize := by
  rcases hr : readLine f st.base with ⟨r, b1⟩
  match r with
  | Except.error e =>
    have hun : eReadLine f st = (Except.error e, { st with base := b1 }) := by
      rw [eReadLine, hr]
    rw [hun]
    exact ⟨hlen, hnd, rfl⟩
  | Except.ok none =>
    have hun : eReadLine f st = (Except.ok none, { st with base := b1 }) := by
      rw [eReadLine, hr]
    rw [hun]
    exact ⟨hlen, hnd, rfl⟩
  | Except.ok (some str) =>
    have hun : eReadLine f st = (Except.ok (some str),
        manageCache { st with base := b1, linePointer := st.linePointer + 1, cache := mapSet st.cache (st.linePointer + 1) str }) := by
      rw [eReadLine, hr]
    rw [hun]
    have hndset : (keysOf (mapSet st.cache (st.linePointer + 1) str)).Nodup :=
      nodup_keysOf_mapSet st.cache (st.linePointer + 1) str hnd
    have hlenset : (mapSet st.cache (st.linePointer + 1) str).length ≤ st.cacheSize + 1 := by
      have := length_mapSet_le st.cache (st.linePointer + 1) str
      omega
    refine ⟨?_, ?_, ?_⟩
    · exact manageCache_bound _ h2 hndset hlenset
    · exact nodup_keysOf_manageCache _ hndset
    · rw [manageCache_cacheSize]

theorem eSkipLinesAux_cache_bound (f : LFile) :
    ∀ (k acc : Nat) (st : ELRState), 2 ≤ st.cacheSize →
      (keysOf st.cache).Nodup → st.cache.length ≤ st.cacheSize →
      (eSkipLinesAux f k acc st).2.cache.length ≤ st.cacheSize
      ∧ (keysOf (eSkipLinesAux f k acc st).2.cache).Nodup
      ∧ (eSkipLinesAux f k acc st).2.cacheSize = st.cacheSize := by
  intro k
  induction k with
  | zero => intro acc st h2 hnd hlen; exact ⟨hlen, hnd, rfl⟩
  | succ k ih =>
    intro acc st h2 hnd hlen
    obtain ⟨hb1, hb2, hb3⟩ := eReadLine_cache_bound f st h2 hnd hlen
    rcases hr : eReadLine f st with ⟨r, st1⟩
    rw [hr] at hb1 hb2 hb3
    have hb1a : st1.cache.length ≤ st.cacheSize := hb1
    have hb2a : (keysOf st1.cache).Nodup := hb2
    have hb3a : st1.cacheSize = st.cacheSize := hb3
    match r with
    | Except.error e =>
      have hun : eSkipLinesAux f (k + 1) acc st = (Except.error e, st1) := by
        rw [eSkipLinesAux, hr]
      rw [hun]
      exact ⟨hb1a, hb2a, hb3a⟩
    | Except.ok none =>
      have hun : eSkipLinesAux f (k + 1) acc st = (Except.ok acc, st1) := by
        rw [eSkipLinesAux, hr]
      rw [hun]
      exact ⟨hb1a, hb2a, hb3a⟩
    | Except.ok (some str) =>
      have hun : eSkipLinesAux f (k + 1) acc st = eSkipLinesAux f k (acc + 1) st1 := by
        rw [eSkipLinesAux, hr]
      rw [hun]
      obtain ⟨hc1, hc2, hc3⟩ := ih (acc + 1) st1 (by omega) hb2a (by omega)
      exact ⟨by omega, hc2, by omega⟩

theorem readLineAt_cache_bound (f : LFile) (n : Nat) (st : ELRState) (h2 : 2 ≤ st.cacheSize)
    (hnd : (keysOf st.cache).Nodup) (hlen : st.cache.length ≤ st.cacheSize) :
    (readLineAt f n st).2.cache.length ≤ st.cacheSize := by
  have hre := eRestart_cache st
  rw [readLineAt]
  split
  · exact hlen
  · split
    · exact hlen
    · split
      · next e st1 heq =>
        have hst1 : st1.cache = st.cache := by
          split at heq
          · split at heq
            · next e2 st1x heq2 =>
              injection heq with hx1 hx2
              subst hx2
              rw [heq2] at hre
              exact hre.1
            · next u2 st1x heq2 =>
              exact absurd heq (by simp)
          · exact absurd heq (by simp)
        show st1.cache.length ≤ st.cacheSize
        rw [hst1]
        exact hlen
      · next u st1 heq =>
        have hst1 : st1.cache = st.cache ∧ st1.cacheSize = st.cacheSize := by
          split at heq
          · split at heq
            · next e2 st1x heq2 =>
              exact absurd heq (by simp)
            · next u2 st1x heq2 =>
              injection heq with hx1 hx2
              subst hx2
              rw [heq2] at hre
              exact ⟨hre.1, hre.2⟩
          · injection heq with hx1 hx2
            subst hx2
            exact ⟨rfl, rfl⟩
        obtain ⟨hc1, hc2⟩ := hst1
        have hlen1 : st1.cache.length ≤ st1.cacheSize := by
          rw [hc1, hc2]
          exact hlen
        have hnd1 : (keysOf st1.cache).Nodup := by
          rw [hc1]
          exact hnd
        have h21 : 2 ≤ st1.cacheSize := by omega
        obtain ⟨hs1, hs2, hs3⟩ := eSkipLinesAux_cache_bound f
          (((n : Int) - (st1.linePointer : Int) - 1)).toNat 0 st1 h21 hnd1 hlen1
        split
        · next e2 st2 heq3 =>
          have heq3a : eSkipLinesAux f (((n : Int) - (st1.linePointer : Int) - 1)).toNat 0 st1
              = (Except.error e2, st2) := heq3
          rw [heq3a] at hs1
          have hs1a : st2.cache.length ≤ st1.cacheSize := hs1
          show st2.cache.length ≤ st.cacheSize
          omega
        · next u2 st2 heq3 =>
          have heq3a : eSkipLinesAux f (((n : Int) - (st1.linePointer : Int) - 1)).toNat 0 st1
              = (Except.ok u2, st2) := heq3
          rw [heq3a] at hs1 hs2 hs3
          have hs1a : st2.cache.length ≤ st1.cacheSize := hs1
          have hs2a : (keysOf st2.cache).Nodup := hs2
          have hs3a : st2.cacheSize = st1.cacheSize := hs3
          obtain ⟨hr1, hr2, hr3⟩ := eReadLine_cache_bound f st2 (by omega) hs2a (by omega)
          split
          · next e3 st3 heq4 =>
            rw [heq4] at hr1
            have hr1a : st3.cache.length ≤ st2.cacheSize := hr1
            show st3.cache.length ≤ st.cacheSize
            omega
          · next st3 heq4 =>
            rw [heq4] at hr1
            have hr1a : st3.cache.length ≤ st2.cacheSize := hr1
            show st3.cache.length ≤ st.cacheSize
            omega
          · next str st3 heq4 =>
            rw [heq4] at hr1 hr2 hr3
            have hr1a : st3.cache.length ≤ st2.cacheSize := hr1
            have hr2a : (keysOf st3.cache).Nodup := hr2
            have hr3a : st3.cacheSize = st2.cacheSize := hr3
            show (manageCache { st3 with cache := mapSet st3.cache n str }).cache.length
              ≤ st.cacheSize
            have hbnd := manageCache_bound { st3 with cache := mapSet st3.cache n str }
              (by show 2 ≤ st3.cacheSize; omega)
              (by show (keysOf (mapSet st3.cache n str)).Nodup
                  exact nodup_keysOf_mapSet st3.cache n str hr2a)
              (by show (mapSet st3.cache n str).length ≤ st3.cacheSize + 1
                  have := length_mapSet_le st3.cache n str
                  omega)
            have hbnd2 : (manageCache { st3 with cache := mapSet st3.cache n str }).cache.length
                ≤ st3.cacheSize := hbnd
            omega

/-- Claim C5 counterexample: with configured `cacheSize = 1`, eviction
removes `⌊1 / 2⌋ = 0` entries, so after two reads the cache holds 2
entries — more than the capacity. -/
theorem cache_bound_fails_at_one_cex :
    (let st := (eReadLine (stringFile ["a", "b"])
        ((eReadLine (stringFile ["a", "b"]) (eOpened 1)).2)).2
     st.cacheSize = 1 ∧ st.cache.length = 2) :=
  ⟨rfl, rfl⟩

/-- Claim C5 (amended): for every configured `cacheSize ≥ 2` and any cache
with distinct keys: whenever the cache size exceeds `cacheSize`,
`manageCache()` removes exactly `⌊cacheSize / 2⌋` entries and every
evicted key is numerically smaller than every surviving key (eviction by
smallest key, not recency); consequently, starting from a cache within
capacity, a cache that has grown to at most `cacheSize + 1` is trimmed
back to at most `cacheSize`, and after every `readLine`/`readLineAt`
operation the cache again holds at most `cacheSize` entries.  (For
`cacheSize = 1` the bound fails: `⌊1 / 2⌋ = 0` entries are evicted.) -/
theorem cache_capacity_spec (st : ELRState) (h2 : 2 ≤ st.cacheSize)
    (hnd : (keysOf st.cache).Nodup) :
    (st.cacheSize < st.cache.length →
        (manageCache st).cache.length + st.cacheSize / 2 = st.cache.length
        ∧ ∀ p ∈ st.cache, ∀ q ∈ st.cache, p ∈ (manageCache st).cache →
            q ∉ (manageCache st).cache → q.1 < p.1)
    ∧ (st.cache.length ≤ st.cacheSize + 1 → (manageCache st).cache.length ≤ st.cacheSize)
    ∧ (∀ f : LFile, st.cache.length ≤ st.cacheSize →
        (eReadLine f st).2.cache.length ≤ st.cacheSize
        ∧ ∀ n, (readLineAt f n st).2.cache.length ≤ st.cacheSize) := by
  refine ⟨?_, ?_, ?_⟩
  · intro hbig
    exact manageCache_spec st hnd hbig
  · intro hlen
    exact manageCache_bound st h2 hnd hlen
  · intro f hlen
    exact ⟨(eReadLine_cache_bound f st h2 hnd hlen).1,
      fun n => readLineAt_cache_bound f n st h2 hnd hlen⟩

theorem cache_capacity_spec_witness :
    (manageCache ⟨baseOpened, [(1, "a"), (2, "b"), (3, "c")], 2, 3⟩).cache.length + 2 / 2
        = 3
    ∧ (manageCache ⟨baseOpened, [(1, "a"), (2, "b"), (3, "c")], 2, 3⟩).cache.length ≤ 2 := by
  have h := cache_capacity_spec ⟨baseOpened, [(1, "a"), (2, "b"), (3, "c")], 2, 3⟩
    (by decide) (by decide)
  exact ⟨(h.1 (by decide)).1, h.2.1 (by decide)⟩

end LineReaderModel
